import Mathlib

/-!
# Verification of the water-ie-outage record normalizer and query filter

Shallow embedding of `src/server.js`: the helpers `stripHtml`,
`extractReference`, `formatDate`, `normalizeOutage` and the
`GET /api/outages` handler (parameter parsing, refnum filter, location
filter, response body).  JavaScript strings are modelled as `List Char`
(wrapped into `String`), upstream field values as explicit
undefined/null/value alternatives, and the regular expressions of the
source are implemented as executable scanners that follow the semantics
of the JS regex engine (`.` does not match line terminators, `\b` is a
word boundary, `\s` is the JS whitespace class, lazy `.*?` stops at the
first `>`).
-/

set_option autoImplicit false

namespace WaterOutage

/-- Code points of the JavaScript `\s` class (also used by
`String.prototype.trim`): ASCII whitespace, NEL-style controls, NBSP,
Unicode space separators, line/paragraph separators, BOM. -/
def jsWsN : List Nat :=
  [0x9, 0xa, 0xb, 0xc, 0xd, 0x20, 0xa0, 0x1680,
   0x2000, 0x2001, 0x2002, 0x2003, 0x2004, 0x2005, 0x2006, 0x2007,
   0x2008, 0x2009, 0x200a, 0x2028, 0x2029, 0x202f, 0x205f, 0x3000, 0xfeff]

/-- JavaScript whitespace test (`\s` and `trim`). -/
def jsWs (c : Char) : Bool := jsWsN.contains c.toNat

/-- JavaScript line terminators, which `.` in a regex does not match. -/
def isLineTerm (c : Char) : Bool := [0xa, 0xd, 0x2028, 0x2029].contains c.toNat

/-- Model of `String.prototype.toLowerCase` on the ASCII range (the upstream data
and the filter parameters in the spec's examples are ASCII). -/
def jsToLowerChar (c : Char) : Char :=
  if 'A' ≤ c ∧ c ≤ 'Z' then Char.ofNat (c.toNat + 32) else c

/-- Lowercase a string, character by character. -/
def jsToLower (s : String) : String := ⟨s.data.map jsToLowerChar⟩

/-- Trim JS whitespace from both ends of a character list
(`String.prototype.trim`). -/
def trimLine (l : List Char) : List Char :=
  ((l.dropWhile jsWs).reverse.dropWhile jsWs).reverse

/-- Model of `String.prototype.trim`. -/
def jsTrim (s : String) : String := ⟨trimLine s.data⟩

/-- Does `hay` start with `needle`? (`String.prototype.startsWith`). -/
def leadsWith : List Char → List Char → Bool
  | [], _ => true
  | _ :: _, [] => false
  | a :: as, b :: bs => (a == b) && leadsWith as bs

/-- Substring containment (`String.prototype.includes`). -/
def infixAt (needle : List Char) : List Char → Bool
  | [] => needle.isEmpty
  | c :: t => leadsWith needle (c :: t) || infixAt needle t

/-- Substring containment on `String`. -/
def strContains (hay needle : String) : Bool := infixAt needle.data hay.data

/-! ## `stripHtml` (server.js lines 16–26)

```
function stripHtml(html) {
  if (!html) return "";
  let text = html.replace(/<br\s*\/?>/gi, "\n");
  text = text.replace(/<\/div\s*>/gi, "\n");
  text = text.replace(/<.*?>/g, "");
  return text.split("\n").map((l) => l.trim()).filter(Boolean).join("\n");
}
```
-/

/-- Tail of a `<br` match: `\s*`, optional `/`, then `>`.  Returns the
input after the tag when the regex `\s*\/?>` matches greedily here. -/
def brSlash : List Char → Option (List Char)
  | [] => none
  | t0 :: t1 => if t0 == '>' then some t1 else none

def brTailCore : List Char → Option (List Char)
  | [] => none
  | c :: t =>
    if c == '>' then some t
    else if c == '/' then brSlash t
    else none

def brTail (l : List Char) : Option (List Char) := brTailCore (l.dropWhile jsWs)

/-- Match of `/<br\s*\/?>/i` at the head of the list; returns the
remainder after the matched tag. -/
def brMatch : List Char → Option (List Char)
  | c0 :: c1 :: c2 :: rest =>
    if c0 == '<' && (c1 == 'b' || c1 == 'B') && (c2 == 'r' || c2 == 'R') then
      brTail rest
    else none
  | _ => none

/-- Global replacement of `/<br\s*\/?>/gi` by `"\n"`, with explicit fuel
so that the definition is structural and kernel-evaluable. -/
def replaceBrF : Nat → List Char → List Char
  | _, [] => []
  | 0, l => l
  | f + 1, c :: t =>
    match brMatch (c :: t) with
    | some rem => '\n' :: replaceBrF f rem
    | none => c :: replaceBrF f t

/-- Model of `html.replace(/<br\s*\/?>/gi, "\n")`. -/
def replaceBr (l : List Char) : List Char := replaceBrF l.length l

/-- Tail of a `</div` match: `\s*` then `>`. -/
def divTailCore : List Char → Option (List Char)
  | [] => none
  | c :: t => if c == '>' then some t else none

def divTail (l : List Char) : Option (List Char) := divTailCore (l.dropWhile jsWs)

/-- Match of `/<\/div\s*>/i` at the head of the list. -/
def divMatch : List Char → Option (List Char)
  | c0 :: c1 :: c2 :: c3 :: c4 :: rest =>
    if c0 == '<' && c1 == '/' && (c2 == 'd' || c2 == 'D') && (c3 == 'i' || c3 == 'I') &&
        (c4 == 'v' || c4 == 'V') then divTail rest
    else none
  | _ => none

/-- Global replacement of `/<\/div\s*>/gi` by `"\n"`, fuelled. -/
def replaceDivF : Nat → List Char → List Char
  | _, [] => []
  | 0, l => l
  | f + 1, c :: t =>
    match divMatch (c :: t) with
    | some rem => '\n' :: replaceDivF f rem
    | none => c :: replaceDivF f t

/-- Model of `text.replace(/<\/div\s*>/gi, "\n")`. -/
def replaceDiv (l : List Char) : List Char := replaceDivF l.length l

/-- Scan for the end of a lazy `<.*?>` match: the first `>` with no line
terminator before it (`.` does not match line terminators).  Returns the
input after that `>`. -/
def findTagEnd : List Char → Option (List Char)
  | [] => none
  | c :: t => if c == '>' then some t else if isLineTerm c then none else findTagEnd t

/-- Global replacement of `/<.*?>/g` by `""`, fuelled. -/
def removeTagsF : Nat → List Char → List Char
  | _, [] => []
  | 0, l => l
  | f + 1, c :: t =>
    if c == '<' then
      match findTagEnd t with
      | some r => removeTagsF f r
      | none => c :: removeTagsF f t
    else c :: removeTagsF f t

/-- Model of `text.replace(/<.*?>/g, "")`. -/
def removeTags (l : List Char) : List Char := removeTagsF l.length l

/-- Model of `text.split("\n")` — always returns a nonempty list of lines. -/
def splitNl : List Char → List (List Char)
  | [] => [[]]
  | c :: t =>
    if c == '\n' then [] :: splitNl t
    else
      match splitNl t with
      | [] => [[c]]
      | h :: r => (c :: h) :: r

/-- Model of `lines.join("\n")`. -/
def joinNl : List (List Char) → List Char
  | [] => []
  | [x] => x
  | x :: xs => x ++ '\n' :: joinNl xs

/-- The whole `stripHtml` pipeline on character lists. -/
def stripHtmlList (l : List Char) : List Char :=
  joinNl ((((splitNl (removeTags (replaceDiv (replaceBr l)))).map trimLine).filter
    (fun x => !x.isEmpty)))

/-- Model of `stripHtml` on strings (server.js lines 16–26); the `if (!html)`
guard is the `s = ""` test since the caller always passes a string. -/
def stripHtmlStr (s : String) : String :=
  if s = "" then "" else ⟨stripHtmlList s.data⟩

/-! ## `extractReference` (server.js lines 28–32)

```
function extractReference(description) {
  if (!description) return null;
  const match = description.match(/\b[A-Z]{3}\d{8}\b/);
  return match ? match[0] : null;
}
```
-/

/-- Uppercase ASCII letter (`[A-Z]`). -/
def isUpperCh (c : Char) : Bool := decide ('A' ≤ c ∧ c ≤ 'Z')

/-- ASCII digit (`\d`). -/
def isDigitCh (c : Char) : Bool := decide ('0' ≤ c ∧ c ≤ '9')

/-- JS word character (`\w`), used by the `\b` boundary. -/
def isWordCh (c : Char) : Bool :=
  isUpperCh c || decide ('a' ≤ c ∧ c ≤ 'z') || isDigitCh c || c == '_'

/-- Does this 11-character list match `[A-Z]{3}\d{8}` exactly? -/
def isRefCode (m : List Char) : Bool :=
  (m.length == 11) && (m.take 3).all isUpperCh && (m.drop 3).all isDigitCh

/-- Right word boundary: end of input or a non-word character next. -/
def boundaryR : List Char → Bool
  | [] => true
  | c :: _ => !isWordCh c

/-- Left-to-right scan for the first match of `/\b[A-Z]{3}\d{8}\b/`;
`prevW` records whether the character before the current position is a
word character (false at the start of the string). -/
def scanRef (prevW : Bool) : List Char → Option String
  | [] => none
  | c :: t =>
    if !prevW && isRefCode ((c :: t).take 11) && boundaryR ((c :: t).drop 11) then
      some ((c :: t).take 11).asString
    else scanRef (isWordCh c) t

/-- Model of `extractReference` (server.js lines 28–32). -/
def extractRef (description : String) : Option String :=
  if description = "" then none else scanRef false description.data

/-- Follows the spec's words for claim C1: the first substring of the
description matching `[A-Z]{3}[0-9]{8}`, with no word-boundary
requirement (the source regex additionally demands `\b` on both sides). -/
def specFirstRefAux : List Char → Option String
  | [] => none
  | c :: t =>
    if isRefCode ((c :: t).take 11) then some ((c :: t).take 11).asString
    else specFirstRefAux t

/-- Spec-words variant of reference extraction (no word boundaries). -/
def specFirstRef (s : String) : Option String := specFirstRefAux s.data

/-! ## Raw records and `normalizeOutage` (server.js lines 34–61)

Raw upstream records are unstructured mappings; a missing key reads as
`undefined` in JS, an explicit JSON null as `null`.  Text-valued fields
carry strings, identifier/epoch fields carry numbers (upstream epochs
are integral milliseconds). -/

/-- A JS string-valued field: missing, null, or a string. -/
inductive JStr where
  | undef
  | jnull
  | str (s : String)
deriving DecidableEq, Repr

/-- A JS number-valued field: missing, null, or an integer. -/
inductive JNum where
  | undef
  | jnull
  | num (n : Int)
deriving DecidableEq, Repr

/-- JS truthiness of a string-valued field. -/
def JStr.truthy : JStr → Bool
  | .str s => !(s == "")
  | _ => false

/-- Model of `props.FIELD || ""` for a string-valued field. -/
def jsOrEmptyS : JStr → String
  | .str s => s
  | _ => ""

/-- One raw upstream record (`f.properties` / `f.attributes`),
restricted to the fields `normalizeOutage` reads.  Every field may be
missing (`undef`) or null. -/
structure RawProps where
  OBJECTID : JNum
  GLOBALID : JStr
  TITLE : JStr
  STATUS : JStr
  LOCATION : JStr
  COUNTY : JStr
  STARTDATE : JNum
  ENDDATE : JNum
  DESCRIPTION : JStr
  REFERENCENUM : JStr
deriving DecidableEq, Repr

/-- The record with every key missing. -/
def allUndefRaw : RawProps :=
  ⟨.undef, .undef, .undef, .undef, .undef, .undef, .undef, .undef, .undef, .undef⟩

/-- The record with every key explicitly null. -/
def allNullRaw : RawProps :=
  ⟨.jnull, .jnull, .jnull, .jnull, .jnull, .jnull, .jnull, .jnull, .jnull, .jnull⟩

/-- The output shape of `normalizeOutage` (server.js lines 47–60). -/
structure NormalizedOutage where
  objectid : JNum
  globalid : JStr
  title : String
  status : String
  location : String
  county : String
  startdate_epoch : Option Int
  enddate_epoch : Option Int
  startdate_human : Option String
  enddate_human : Option String
  reference : Option String
  description : String
deriving DecidableEq, Repr

/-- Largest time value accepted by `new Date(n)`: ±8.64e15 ms. -/
def maxDateMillis : Nat := 8640000000000000

/-- Placeholder for `Date.prototype.toLocaleString("en-IE",
{timeZone: "Europe/Dublin"})`.  The spec (§4.1) fixes only the
null-handling contract and calls the exact rendering a presentation
detail, so the model keeps the rendering abstract but total and
injective. -/
def toLocaleStringEnIE (n : Int) : String := toString n

/-- Model of `formatDate` (server.js lines 34–40): null for a missing/null epoch
(but not for the number 0), null when `new Date(epoch)` is invalid,
otherwise the Irish-locale rendering. -/
def formatDate : JNum → Option String
  | .undef => none
  | .jnull => none
  | .num n => if n.natAbs ≤ maxDateMillis then some (toLocaleStringEnIE n) else none

/-- Model of `props.STARTDATE || null`: a truthy number passes through, anything
falsy (missing, null, and also the number 0) becomes null. -/
def epochOrNull : JNum → Option Int
  | .num n => if n == 0 then none else some n
  | _ => none

/-- Model of `props.REFERENCENUM || extractReference(plainDesc)` (line 45). -/
def referenceOf (refnum : JStr) (plainDesc : String) : Option String :=
  if refnum.truthy then
    match refnum with
    | .str r => some r
    | _ => none
  else extractRef plainDesc

/-- Model of `normalizeOutage` (server.js lines 42–61). -/
def normalizeOutage (props : RawProps) : NormalizedOutage :=
  let rawDesc := jsOrEmptyS props.DESCRIPTION
  let plainDesc := stripHtmlStr rawDesc
  let reference := referenceOf props.REFERENCENUM plainDesc
  ⟨props.OBJECTID, props.GLOBALID,
   jsOrEmptyS props.TITLE, jsOrEmptyS props.STATUS,
   jsOrEmptyS props.LOCATION, jsOrEmptyS props.COUNTY,
   epochOrNull props.STARTDATE, epochOrNull props.ENDDATE,
   formatDate props.STARTDATE, formatDate props.ENDDATE,
   reference, plainDesc⟩

/-! ## The `GET /api/outages` handler (server.js lines 63–122) -/

/-- The query parameters the handler reads (`req.query.*`); `none`
models an absent parameter. -/
structure Query where
  county : Option String
  refnum : Option String
  location : Option String
deriving DecidableEq, Repr

/-- One upstream feature; `normalizeOutage` receives
`f.properties || f.attributes || {}` (line 91). -/
structure Feature where
  properties : Option RawProps
  attributes : Option RawProps
deriving DecidableEq, Repr

/-- Model of `f.properties || f.attributes || {}`. -/
def featureProps (f : Feature) : RawProps :=
  match f.properties with
  | some p => p
  | none =>
    match f.attributes with
    | some p => p
    | none => allUndefRaw

/-- Model of `const refnum = (req.query.refnum || "").trim() || null` (line 66). -/
def refnumParam (q : Option String) : Option String :=
  let t := jsTrim (q.getD "")
  if t = "" then none else some t

/-- Model of `const locationFilter = (req.query.location || "").trim().toLowerCase()`
(line 67). -/
def locationParam (q : Option String) : String :=
  jsToLower (jsTrim (q.getD ""))

/-- Model of `if (refnum) outages = outages.filter((o) => o.reference === refnum)`
(lines 95–97). -/
def applyRefnumFilter (refnum : Option String) (outs : List NormalizedOutage) :
    List NormalizedOutage :=
  match refnum with
  | some r => outs.filter (fun o => o.reference == some r)
  | none => outs

/-- Model of `if (locationFilter) outages = outages.filter(...)` (lines 100–106):
keep outages whose lowercased location or lowercased description
contains the filter substring. -/
def applyLocationFilter (lf : String) (outs : List NormalizedOutage) :
    List NormalizedOutage :=
  if lf = "" then outs
  else outs.filter (fun o =>
    strContains (jsToLower o.location) lf || strContains (jsToLower o.description) lf)

/-- Success body of the handler (lines 108–114). -/
structure OkBody where
  county : String
  refnum : Option String
  locationFilter : Option String
  count : Nat
  outages : List NormalizedOutage
deriving DecidableEq, Repr

/-- The three responses the handler can produce. -/
inductive ApiResp where
  | badRequest (error : String)
  | ok (body : OkBody)
  | serverError (error : String) (details : String)
deriving DecidableEq, Repr

/-- The handler for `GET /api/outages` (lines 64–122).  The upstream
fetch is a parameter: `Except.error` models an axios failure, `Except.ok
none` a response without a `features` array (the code defaults it to
`[]`).  The returned `Bool` records whether the upstream was contacted;
the county guard (lines 69–71) runs before the fetch. -/
def handleOutages (q : Query) (upstream : Except String (Option (List Feature))) :
    Bool × ApiResp :=
  let refnum := refnumParam q.refnum
  let locF := locationParam q.location
  if (match q.county with | none => true | some s => s == "") then
    (false, .badRequest "Missing required parameter: county")
  else
    match upstream with
    | .error e => (true, .serverError "Failed to fetch outage data" e)
    | .ok d =>
      let features := d.getD []
      let outages0 := features.map (fun f => normalizeOutage (featureProps f))
      let outages1 := applyRefnumFilter refnum outages0
      let outages2 := applyLocationFilter locF outages1
      (true, .ok ⟨q.county.getD "", refnum,
                  if locF = "" then none else some locF,
                  outages2.length, outages2⟩)

/-! ## Spec-words variant of the markup stripping for claim C4

The spec says closing *block-level* tags become newlines; the source
only handles `</div>`.  This variant follows the spec's words for a
standard set of block-level elements. -/

/-- Standard HTML block-level element names (lowercase). -/
def blockTagNames : List (List Char) :=
  [['d', 'i', 'v'], ['p'], ['s', 'e', 'c', 't', 'i', 'o', 'n'],
   ['u', 'l'], ['o', 'l'], ['l', 'i'], ['t', 'a', 'b', 'l', 'e'],
   ['h', '1'], ['h', '2'], ['h', '3'], ['h', '4'], ['h', '5'], ['h', '6']]

/-- Consume a tag name case-insensitively. -/
def eatName : List Char → List Char → Option (List Char)
  | [], rest => some rest
  | _ :: _, [] => none
  | n :: ns, c :: cs => if jsToLowerChar c == n then eatName ns cs else none

/-- Try each block tag name: `</name\s*>`. -/
def tryBlockTags : List (List Char) → List Char → Option (List Char)
  | [], _ => none
  | n :: ns, rest =>
    match eatName n rest with
    | some r =>
      (match r.dropWhile jsWs with
       | c :: r2 => if c == '>' then some r2 else tryBlockTags ns rest
       | [] => tryBlockTags ns rest)
    | none => tryBlockTags ns rest

/-- Match of a closing block-level tag at the head of the list
(spec-words variant of `divMatch`). -/
def closeBlockMatch : List Char → Option (List Char)
  | c0 :: c1 :: rest =>
    if c0 == '<' && c1 == '/' then tryBlockTags blockTagNames rest else none
  | _ => none

/-- Global replacement of closing block-level tags by `"\n"`, fuelled
(spec-words variant). -/
def replaceCloseBlockF : Nat → List Char → List Char
  | _, [] => []
  | 0, l => l
  | f + 1, c :: t =>
    match closeBlockMatch (c :: t) with
    | some rem => '\n' :: replaceCloseBlockF f rem
    | none => c :: replaceCloseBlockF f t

/-- Spec-words closing-block-tag pass. -/
def replaceCloseBlock (l : List Char) : List Char := replaceCloseBlockF l.length l

/-- Follows the spec's words for claim C4: line-break tags become
newlines, closing block-level tags become newlines, all remaining tags
are deleted, then split/trim/drop-empty/rejoin. -/
def specStripHtml (s : String) : String :=
  if s = "" then ""
  else ⟨joinNl ((((splitNl (removeTags (replaceCloseBlock (replaceBr s.data)))).map
    trimLine).filter (fun x => !x.isEmpty)))⟩

/-! ## Concrete records used as test inputs -/

/-- A raw record whose description embeds a reference code. -/
def demoRawBallina : RawProps :=
  ⟨.num 1, .str "g-1", .str "Water Outage", .str "Open",
   .str "Ballina Co. Mayo", .str "Mayo", .num 1700000000000, .jnull,
   .str "Burst main in Ballina. Ref MAY00102991.", .undef⟩

/-- A raw record with an explicit reference field. -/
def demoRawCastlebar : RawProps :=
  ⟨.num 2, .str "g-2", .str "Works", .str "Open",
   .str "Castlebar", .str "Mayo", .num 1700000100000, .undef,
   .str "Planned works", .str "MAY00200000"⟩

/-- The two demo records, normalized. -/
def demoOuts : List NormalizedOutage :=
  [normalizeOutage demoRawBallina, normalizeOutage demoRawCastlebar]

/-- A raw record whose description is `"ABC123456789"`: it contains the
substring `ABC12345678` matching `[A-Z]{3}[0-9]{8}`, but the trailing
ninth digit defeats the `\b` boundary of the source regex. -/
def refDigitsRaw : RawProps :=
  ⟨.undef, .undef, .undef, .undef, .undef, .undef, .undef, .undef,
   .str "ABC123456789", .undef⟩

/-- A raw record whose start epoch is literally 0. -/
def zeroEpochRaw : RawProps :=
  ⟨.undef, .undef, .undef, .undef, .undef, .undef, .num 0, .undef,
   .undef, .undef⟩

/-- A raw record whose description contains a `<br>` tag and a closing
`</p>` tag. -/
def brPRaw : RawProps :=
  ⟨.undef, .undef, .undef, .undef, .undef, .undef, .undef, .undef,
   .str "a<br>b</p>c", .undef⟩

/-! ## Predicates used to state the claims -/

/-- Scanner for leftover single-line angle-bracket markup: true iff the
list contains a `<` that is followed, before any line terminator, by a
`>` (i.e. a substring the tag-removal regex `<.*?>` could still match). -/
def hasTagB : List Char → Bool
  | [] => false
  | c :: t => if c == '<' then (findTagEnd t).isSome || hasTagB t else hasTagB t

/-- Shape of a string matched by `/<br\s*\/?>/i`: `<br`, optional
whitespace, optional `/`, then `>`. -/
def IsBrTagL (tag : List Char) : Prop :=
  ∃ b r w sl, tag = '<' :: b :: r :: (w ++ sl ++ ['>']) ∧
    (b = 'b' ∨ b = 'B') ∧ (r = 'r' ∨ r = 'R') ∧
    (∀ c ∈ w, jsWs c = true) ∧ (sl = [] ∨ sl = ['/'])

/-- Shape of a string matched by `/<\/div\s*>/i`. -/
def IsDivTagL (tag : List Char) : Prop :=
  ∃ d i v w, tag = '<' :: '/' :: d :: i :: v :: (w ++ ['>']) ∧
    (d = 'd' ∨ d = 'D') ∧ (i = 'i' ∨ i = 'I') ∧ (v = 'v' ∨ v = 'V') ∧
    (∀ c ∈ w, jsWs c = true)

/-- Left word-boundary condition for a match whose preceding context is
`pre` (`prevW` says whether the character before the whole scanned list
is a word character): the character immediately before the match — the
last of `pre`, or the context bit when `pre` is empty — is not a word
character. -/
def boundaryL (prevW : Bool) : List Char → Prop
  | [] => prevW = false
  | [c] => isWordCh c = false
  | _ :: rest => boundaryL prevW rest

/-- Predicate `BMA prevW l i`: the regex `\b[A-Z]{3}\d{8}\b` matches in `l` at
position `i` (given that the character just before `l` is a word
character iff `prevW`). -/
def BMA (prevW : Bool) (l : List Char) (i : Nat) : Prop :=
  ∃ pre m post, l = pre ++ m ++ post ∧ pre.length = i ∧ isRefCode m = true ∧
    boundaryL prevW pre ∧ boundaryR post = true

/-! # Lemmas

## Step equations for the pattern-matching helpers -/

theorem brSlash_cons (t0 : Char) (t1 : List Char) :
    brSlash (t0 :: t1) = (if t0 == '>' then some t1 else none) := rfl

theorem brTailCore_cons (c : Char) (t : List Char) :
    brTailCore (c :: t) =
      (if c == '>' then some t else if c == '/' then brSlash t else none) := rfl

theorem divTailCore_cons (c : Char) (t : List Char) :
    divTailCore (c :: t) = (if c == '>' then some t else none) := rfl

theorem brMatch_cons3 (c0 c1 c2 : Char) (rest : List Char) :
    brMatch (c0 :: c1 :: c2 :: rest) =
      (if c0 == '<' && (c1 == 'b' || c1 == 'B') && (c2 == 'r' || c2 == 'R') then
        brTail rest
      else none) := rfl

theorem divMatch_cons5 (c0 c1 c2 c3 c4 : Char) (rest : List Char) :
    divMatch (c0 :: c1 :: c2 :: c3 :: c4 :: rest) =
      (if c0 == '<' && c1 == '/' && (c2 == 'd' || c2 == 'D') && (c3 == 'i' || c3 == 'I') &&
          (c4 == 'v' || c4 == 'V') then divTail rest
      else none) := rfl

/-! ## Consumption bounds for the tag matchers -/

theorem brTail_length {l r : List Char} (h : brTail l = some r) :
    r.length < l.length + 1 := by
  have hlen : (l.dropWhile jsWs).length ≤ l.length :=
    (List.dropWhile_suffix jsWs).length_le
  unfold brTail at h
  rcases hd : l.dropWhile jsWs with _ | ⟨c, t⟩ <;> rw [hd] at h hlen
  · simp [brTailCore] at h
  · rw [brTailCore_cons] at h
    simp at hlen
    by_cases hgt : c == '>'
    · rw [if_pos hgt] at h
      cases h
      omega
    · rw [if_neg hgt] at h
      by_cases hsl : c == '/'
      · rw [if_pos hsl] at h
        cases t with
        | nil => simp [brSlash] at h
        | cons t0 t1 =>
          rw [brSlash_cons] at h
          by_cases ht0 : t0 == '>'
          · rw [if_pos ht0] at h
            cases h
            simp at hlen
            omega
          · rw [if_neg ht0] at h
            simp at h
      · rw [if_neg hsl] at h
        simp at h

theorem brMatch_length {l r : List Char} (h : brMatch l = some r) :
    r.length < l.length := by
  unfold brMatch at h
  split at h
  · split at h
    · have hb := brTail_length h
      simp at hb ⊢
      omega
    · simp at h
  · simp at h

theorem divTail_length {l r : List Char} (h : divTail l = some r) :
    r.length < l.length + 1 := by
  have hlen : (l.dropWhile jsWs).length ≤ l.length :=
    (List.dropWhile_suffix jsWs).length_le
  unfold divTail at h
  rcases hd : l.dropWhile jsWs with _ | ⟨c, t⟩ <;> rw [hd] at h hlen
  · simp [divTailCore] at h
  · rw [divTailCore_cons] at h
    simp at hlen
    by_cases hgt : c == '>'
    · rw [if_pos hgt] at h
      cases h
      omega
    · rw [if_neg hgt] at h
      simp at h

theorem divMatch_length {l r : List Char} (h : divMatch l = some r) :
    r.length < l.length := by
  unfold divMatch at h
  split at h
  · split at h
    · have hb := divTail_length h
      simp at hb ⊢
      omega
    · simp at h
  · simp at h

theorem findTagEnd_length {l r : List Char} (h : findTagEnd l = some r) :
    r.length < l.length := by
  induction l with
  | nil => exact absurd h (by simp [findTagEnd])
  | cons c t ih =>
    unfold findTagEnd at h
    by_cases hc : c == '>'
    · rw [if_pos hc] at h
      simp at h
      subst h
      simp
    · rw [if_neg hc] at h
      by_cases hl : isLineTerm c
      · rw [if_pos hl] at h; exact absurd h (by simp)
      · rw [if_neg hl] at h
        have := ih h
        simp
        omega

theorem eatName_length : ∀ (n l r : List Char), eatName n l = some r →
    r.length ≤ l.length := by
  intro n
  induction n with
  | nil =>
    intro l r h
    simp [eatName] at h
    subst h
    omega
  | cons c cs ih =>
    intro l r h
    cases l with
    | nil => simp [eatName] at h
    | cons x xs =>
      unfold eatName at h
      split at h
      · have := ih xs r h
        simp
        omega
      · simp at h

theorem tryBlockTags_length {ns : List (List Char)} {l r : List Char}
    (h : tryBlockTags ns l = some r) : r.length ≤ l.length := by
  induction ns generalizing r with
  | nil => simp [tryBlockTags] at h
  | cons n ns ih =>
    unfold tryBlockTags at h
    split at h
    · rename_i rr heat
      have h1 : rr.length ≤ l.length := eatName_length n l rr heat
      rcases hd : rr.dropWhile jsWs with _ | ⟨c, r2⟩ <;> simp only [hd] at h
      · exact ih h
      · have h2 : (rr.dropWhile jsWs).length ≤ rr.length :=
          (List.dropWhile_suffix jsWs).length_le
        rw [hd] at h2
        simp at h2
        split at h
        · cases h; omega
        · exact ih h
    · exact ih h

theorem closeBlockMatch_length {l r : List Char} (h : closeBlockMatch l = some r) :
    r.length < l.length := by
  unfold closeBlockMatch at h
  split at h
  · split at h
    · have := tryBlockTags_length h
      simp
      omega
    · simp at h
  · simp at h

/-! ## Fuel irrelevance and step equations for the fuelled passes -/

theorem replaceBrF_congr : ∀ (f₁ : Nat) (f₂ : Nat) (l : List Char),
    l.length ≤ f₁ → l.length ≤ f₂ → replaceBrF f₁ l = replaceBrF f₂ l := by
  intro f₁
  induction f₁ with
  | zero =>
    intro f₂ l h1 _
    cases l with
    | nil => simp [replaceBrF]
    | cons c t => simp at h1
  | succ f ih =>
    intro f₂ l h1 h2
    cases l with
    | nil => simp [replaceBrF]
    | cons c t =>
      cases f₂ with
      | zero => simp at h2
      | succ g =>
        simp only [replaceBrF]
        cases hm : brMatch (c :: t) with
        | some rem =>
          have hlt := brMatch_length hm
          simp at h1 h2 hlt
          show '\n' :: replaceBrF f rem = '\n' :: replaceBrF g rem
          rw [ih g rem (by omega) (by omega)]
        | none =>
          simp at h1 h2
          show c :: replaceBrF f t = c :: replaceBrF g t
          rw [ih g t (by omega) (by omega)]

theorem replaceBr_cons (c : Char) (t : List Char) :
    replaceBr (c :: t) =
      (match brMatch (c :: t) with
       | some rem => '\n' :: replaceBr rem
       | none => c :: replaceBr t) := by
  show replaceBrF (t.length + 1) (c :: t) = _
  simp only [replaceBrF]
  cases hm : brMatch (c :: t) with
  | some rem =>
    have hlt := brMatch_length hm
    simp at hlt
    exact congrArg ('\n' :: ·) (replaceBrF_congr t.length rem.length rem (by omega) le_rfl)
  | none => rfl

theorem replaceDivF_congr : ∀ (f₁ : Nat) (f₂ : Nat) (l : List Char),
    l.length ≤ f₁ → l.length ≤ f₂ → replaceDivF f₁ l = replaceDivF f₂ l := by
  intro f₁
  induction f₁ with
  | zero =>
    intro f₂ l h1 _
    cases l with
    | nil => simp [replaceDivF]
    | cons c t => simp at h1
  | succ f ih =>
    intro f₂ l h1 h2
    cases l with
    | nil => simp [replaceDivF]
    | cons c t =>
      cases f₂ with
      | zero => simp at h2
      | succ g =>
        simp only [replaceDivF]
        cases hm : divMatch (c :: t) with
        | some rem =>
          have hlt := divMatch_length hm
          simp at h1 h2 hlt
          show '\n' :: replaceDivF f rem = '\n' :: replaceDivF g rem
          rw [ih g rem (by omega) (by omega)]
        | none =>
          simp at h1 h2
          show c :: replaceDivF f t = c :: replaceDivF g t
          rw [ih g t (by omega) (by omega)]

theorem replaceDiv_cons (c : Char) (t : List Char) :
    replaceDiv (c :: t) =
      (match divMatch (c :: t) with
       | some rem => '\n' :: replaceDiv rem
       | none => c :: replaceDiv t) := by
  show replaceDivF (t.length + 1) (c :: t) = _
  simp only [replaceDivF]
  cases hm : divMatch (c :: t) with
  | some rem =>
    have hlt := divMatch_length hm
    simp at hlt
    exact congrArg ('\n' :: ·) (replaceDivF_congr t.length rem.length rem (by omega) le_rfl)
  | none => rfl

theorem removeTagsF_congr : ∀ (f₁ : Nat) (f₂ : Nat) (l : List Char),
    l.length ≤ f₁ → l.length ≤ f₂ → removeTagsF f₁ l = removeTagsF f₂ l := by
  intro f₁
  induction f₁ with
  | zero =>
    intro f₂ l h1 _
    cases l with
    | nil => simp [removeTagsF]
    | cons c t => simp at h1
  | succ f ih =>
    intro f₂ l h1 h2
    cases l with
    | nil => simp [removeTagsF]
    | cons c t =>
      cases f₂ with
      | zero => simp at h2
      | succ g =>
        simp only [removeTagsF]
        by_cases hc : c == '<'
        · rw [if_pos hc, if_pos hc]
          cases hm : findTagEnd t with
          | some r =>
            have hlt := findTagEnd_length hm
            simp at h1 h2
            show removeTagsF f r = removeTagsF g r
            rw [ih g r (by omega) (by omega)]
          | none =>
            simp at h1 h2
            show c :: removeTagsF f t = c :: removeTagsF g t
            rw [ih g t (by omega) (by omega)]
        · rw [if_neg hc, if_neg hc]
          simp at h1 h2
          rw [ih g t (by omega) (by omega)]

theorem removeTags_cons (c : Char) (t : List Char) :
    removeTags (c :: t) =
      (if c == '<' then
        match findTagEnd t with
        | some r => removeTags r
        | none => c :: removeTags t
      else c :: removeTags t) := by
  show removeTagsF (t.length + 1) (c :: t) = _
  simp only [removeTagsF]
  by_cases hc : c == '<'
  · rw [if_pos hc, if_pos hc]
    cases hm : findTagEnd t with
    | some r =>
      have hlt := findTagEnd_length hm
      exact removeTagsF_congr t.length r.length r (by omega) le_rfl
    | none => rfl
  · rw [if_neg hc, if_neg hc]
    rfl

/-! ## After tag removal, no single-line markup remains -/

theorem lineTerm_ne_lt {c : Char} (h : isLineTerm c = true) : (c == '<') = false := by
  apply beq_eq_false_iff_ne.mpr
  intro hcc
  subst hcc
  simp [isLineTerm] at h

theorem lineTerm_ne_gt {c : Char} (h : isLineTerm c = true) : (c == '>') = false := by
  apply beq_eq_false_iff_ne.mpr
  intro hcc
  subst hcc
  simp [isLineTerm] at h

theorem findTagEnd_removeTags : ∀ (n : Nat) (l : List Char), l.length ≤ n →
    findTagEnd l = none → findTagEnd (removeTags l) = none := by
  intro n
  induction n with
  | zero =>
    intro l h1 _
    cases l with
    | nil => simp [removeTags, removeTagsF, findTagEnd]
    | cons c t => simp at h1
  | succ m ih =>
    intro l h1 h2
    cases l with
    | nil => simp [removeTags, removeTagsF, findTagEnd]
    | cons c t =>
      rw [removeTags_cons]
      simp at h1
      unfold findTagEnd at h2
      by_cases hc : c == '>'
      · rw [if_pos hc] at h2; simp at h2
      · rw [if_neg hc] at h2
        by_cases hl : isLineTerm c
        · rw [lineTerm_ne_lt hl, if_neg (by simp)]
          unfold findTagEnd
          rw [if_neg (by simp [hc]), if_pos hl]
        · rw [if_neg hl] at h2
          by_cases hc2 : c == '<'
          · rw [if_pos hc2, h2]
            unfold findTagEnd
            rw [if_neg (by simp [hc]), if_neg (by simp [hl])]
            exact ih t h1 h2
          · rw [if_neg hc2]
            unfold findTagEnd
            rw [if_neg (by simp [hc]), if_neg (by simp [hl])]
            exact ih t h1 h2

theorem hasTagB_removeTags : ∀ (n : Nat) (l : List Char), l.length ≤ n →
    hasTagB (removeTags l) = false := by
  intro n
  induction n with
  | zero =>
    intro l h1
    cases l with
    | nil => simp [removeTags, removeTagsF, hasTagB]
    | cons c t => simp at h1
  | succ m ih =>
    intro l h1
    cases l with
    | nil => simp [removeTags, removeTagsF, hasTagB]
    | cons c t =>
      rw [removeTags_cons]
      simp at h1
      by_cases hc : c == '<'
      · rw [if_pos hc]
        cases hm : findTagEnd t with
        | some r =>
          have := findTagEnd_length hm
          exact ih r (by omega)
        | none =>
          unfold hasTagB
          rw [if_pos hc, findTagEnd_removeTags m t h1 hm]
          simp
          exact ih t h1
      · rw [if_neg hc]
        unfold hasTagB
        rw [if_neg hc]
        exact ih t h1

/-! ## `split("\n")` / `join("\n")` -/

theorem splitNl_ne_nil : ∀ l : List Char, splitNl l ≠ [] := by
  intro l
  cases l with
  | nil => simp [splitNl]
  | cons c t =>
    unfold splitNl
    by_cases hc : c == '\n'
    · rw [if_pos hc]; simp
    · rw [if_neg hc]
      cases splitNl t <;> simp

theorem joinNl_cons_cons (x y : List Char) (zs : List (List Char)) :
    joinNl (x :: y :: zs) = x ++ '\n' :: joinNl (y :: zs) := rfl

theorem splitNl_join : ∀ l : List Char, joinNl (splitNl l) = l := by
  intro l
  induction l with
  | nil => rfl
  | cons c t ih =>
    unfold splitNl
    by_cases hc : c == '\n'
    · rw [if_pos hc]
      rcases hs : splitNl t with _ | ⟨h0, r⟩
      · exact absurd hs (splitNl_ne_nil t)
      · rw [joinNl_cons_cons]
        rw [hs] at ih
        rw [ih]
        have : c = '\n' := by simpa using hc
        rw [this]
        rfl
    · rw [if_neg hc]
      rcases hs : splitNl t with _ | ⟨h0, r⟩
      · exact absurd hs (splitNl_ne_nil t)
      · rw [hs] at ih
        rcases r with _ | ⟨r0, r1⟩
        · simp only [joinNl] at ih ⊢
          rw [ih]
        · rw [joinNl_cons_cons] at ih ⊢
          rw [List.cons_append, ih]

theorem splitNl_no_nl : ∀ (l L : List Char), L ∈ splitNl l → '\n' ∉ L := by
  intro l
  induction l with
  | nil =>
    intro L hL
    simp [splitNl] at hL
    subst hL
    simp
  | cons c t ih =>
    intro L hL
    unfold splitNl at hL
    by_cases hc : c == '\n'
    · rw [if_pos hc] at hL
      rcases List.mem_cons.mp hL with rfl | hL'
      · simp
      · exact ih L hL'
    · rw [if_neg hc] at hL
      rcases hs : splitNl t with _ | ⟨h0, r⟩ <;> rw [hs] at hL
      · simp at hL
        subst hL
        intro hmem
        simp at hmem
        rw [hmem] at hc
        simp at hc
      · rcases List.mem_cons.mp hL with rfl | hL'
        · intro hmem
          rcases List.mem_cons.mp hmem with heq | hmem'
          · rw [← heq] at hc; simp at hc
          · exact ih h0 (by rw [hs]; exact List.mem_cons_self h0 r) hmem'
        · exact ih L (by rw [hs]; exact List.mem_cons_of_mem h0 hL')

/-! ## The markup checker across `"\n"` joins, and under trimming -/

theorem findTagEnd_cons (c : Char) (t : List Char) :
    findTagEnd (c :: t) =
      (if c == '>' then some t else if isLineTerm c then none else findTagEnd t) := rfl

theorem hasTagB_cons (c : Char) (t : List Char) :
    hasTagB (c :: t) =
      (if c == '<' then (findTagEnd t).isSome || hasTagB t else hasTagB t) := rfl

theorem findTagEnd_append_nl : ∀ (L rest : List Char), '\n' ∉ L →
    (findTagEnd (L ++ '\n' :: rest)).isSome = (findTagEnd L).isSome := by
  intro L
  induction L with
  | nil =>
    intro rest _
    show (findTagEnd ('\n' :: rest)).isSome = _
    rw [findTagEnd_cons, if_neg (by decide), if_pos (by decide)]
    rfl
  | cons c L' ihl =>
    intro rest hnl
    simp [List.mem_cons] at hnl
    obtain ⟨h1, h2⟩ := hnl
    rw [List.cons_append, findTagEnd_cons, findTagEnd_cons c L']
    by_cases hgt : c == '>'
    · rw [if_pos hgt, if_pos hgt]
      rfl
    · rw [if_neg hgt, if_neg hgt]
      by_cases hlt : isLineTerm c
      · rw [if_pos hlt, if_pos hlt]
      · rw [if_neg hlt, if_neg hlt]
        exact ihl rest h2

theorem hasTagB_append_nl : ∀ (L rest : List Char), '\n' ∉ L →
    hasTagB (L ++ '\n' :: rest) = (hasTagB L || hasTagB rest) := by
  intro L
  induction L with
  | nil =>
    intro rest _
    show hasTagB ('\n' :: rest) = _
    rw [hasTagB_cons, if_neg (by decide)]
    rfl
  | cons c L' ihl =>
    intro rest hnl
    simp [List.mem_cons] at hnl
    obtain ⟨h1, h2⟩ := hnl
    rw [List.cons_append, hasTagB_cons, hasTagB_cons c L']
    by_cases hc : c == '<'
    · rw [if_pos hc, if_pos hc, findTagEnd_append_nl L' rest h2, ihl rest h2,
        ← Bool.or_assoc]
    · rw [if_neg hc, if_neg hc]
      exact ihl rest h2

theorem hasTagB_joinNl : ∀ (ls : List (List Char)), (∀ L ∈ ls, '\n' ∉ L) →
    hasTagB (joinNl ls) = ls.any hasTagB := by
  intro ls
  induction ls with
  | nil => intro _; rfl
  | cons x xs ih =>
    intro h
    cases xs with
    | nil => simp [joinNl]
    | cons y zs =>
      rw [joinNl_cons_cons,
        hasTagB_append_nl x (joinNl (y :: zs)) (h x (List.mem_cons_self x (y :: zs))),
        ih (fun L hL => h L (List.mem_cons_of_mem x hL))]
      simp [List.any_cons]

theorem hasTagB_suffix_false : ∀ (l t : List Char), hasTagB l = false → t <:+ l →
    hasTagB t = false := by
  intro l
  induction l with
  | nil =>
    intro t _ ht
    obtain ⟨s, hs⟩ := ht
    rw [(List.append_eq_nil.mp hs).2]
    rfl
  | cons c l' ih =>
    intro t h ht
    have h' : hasTagB l' = false := by
      rw [hasTagB_cons] at h
      by_cases hc : c == '<'
      · rw [if_pos hc] at h
        exact (Bool.or_eq_false_iff.mp h).2
      · rw [if_neg hc] at h
        exact h
    obtain ⟨s, hs⟩ := ht
    cases s with
    | nil =>
      simp at hs
      rw [hs]
      exact h
    | cons a s' =>
      rw [List.cons_append] at hs
      injection hs with hh1 hh2
      exact ih t h' ⟨s', hh2⟩

theorem findTagEnd_isSome_append : ∀ (u v : List Char), (findTagEnd u).isSome = true →
    (findTagEnd (u ++ v)).isSome = true := by
  intro u
  induction u with
  | nil => intro v h; simp [findTagEnd] at h
  | cons c u' ih =>
    intro v h
    rw [List.cons_append, findTagEnd_cons]
    rw [findTagEnd_cons] at h
    by_cases hgt : c == '>'
    · rw [if_pos hgt]
      rfl
    · rw [if_neg hgt] at h ⊢
      by_cases hlt : isLineTerm c
      · rw [if_pos hlt] at h
        simp at h
      · rw [if_neg hlt] at h ⊢
        exact ih v h

theorem hasTagB_append_left : ∀ (u v : List Char), hasTagB (u ++ v) = false →
    hasTagB u = false := by
  intro u
  induction u with
  | nil => intro v _; rfl
  | cons c u' ih =>
    intro v h
    rw [List.cons_append, hasTagB_cons] at h
    rw [hasTagB_cons]
    by_cases hc : c == '<'
    · rw [if_pos hc] at h ⊢
      obtain ⟨ha, hb⟩ := Bool.or_eq_false_iff.mp h
      have hf : (findTagEnd u').isSome = false := by
        cases hfe : (findTagEnd u').isSome
        · rfl
        · exact absurd (findTagEnd_isSome_append u' v hfe) (by rw [ha]; simp)
      rw [hf, ih v hb]
      rfl
    · rw [if_neg hc] at h ⊢
      exact ih v h

theorem hasTagB_trimLine : ∀ (L : List Char), hasTagB L = false →
    hasTagB (trimLine L) = false := by
  intro L h
  have hdt : hasTagB (L.dropWhile jsWs) = false :=
    hasTagB_suffix_false L _ h (List.dropWhile_suffix jsWs)
  obtain ⟨s, hs⟩ :=
    (List.dropWhile_suffix jsWs : (L.dropWhile jsWs).reverse.dropWhile jsWs <:+
      (L.dropWhile jsWs).reverse)
  have hdd : L.dropWhile jsWs =
      ((L.dropWhile jsWs).reverse.dropWhile jsWs).reverse ++ s.reverse := by
    have hrev := congrArg List.reverse hs
    simp at hrev
    exact hrev.symm
  unfold trimLine
  apply hasTagB_append_left _ s.reverse
  rw [← hdd]
  exact hdt

theorem mem_trimLine : ∀ {x : Char} {L : List Char}, x ∈ trimLine L → x ∈ L := by
  intro x L hx
  unfold trimLine at hx
  have hx1 : x ∈ (L.dropWhile jsWs).reverse.dropWhile jsWs := List.mem_reverse.mp hx
  have hx2 : x ∈ (L.dropWhile jsWs).reverse := by
    obtain ⟨s, hs⟩ :=
      (List.dropWhile_suffix jsWs : (L.dropWhile jsWs).reverse.dropWhile jsWs <:+
        (L.dropWhile jsWs).reverse)
    rw [← hs]
    exact List.mem_append_right s hx1
  have hx3 : x ∈ L.dropWhile jsWs := List.mem_reverse.mp hx2
  obtain ⟨s2, hs2⟩ := (List.dropWhile_suffix jsWs : L.dropWhile jsWs <:+ L)
  rw [← hs2]
  exact List.mem_append_right s2 hx3

/-- After the whole `stripHtml` pipeline no single-line angle-bracket
markup remains in the description. -/
theorem stripHtml_no_markup : ∀ s : String, hasTagB (stripHtmlStr s).data = false := by
  intro s
  unfold stripHtmlStr
  by_cases hs : s = ""
  · rw [if_pos hs]
    rfl
  · rw [if_neg hs]
    show hasTagB (stripHtmlList s.data) = false
    unfold stripHtmlList
    set u := removeTags (replaceDiv (replaceBr s.data)) with hu
    have hu_tag : hasTagB u = false := by
      rw [hu]
      exact hasTagB_removeTags _ _ le_rfl
    set ls := splitNl u with hls
    have hnl : ∀ L ∈ ls, '\n' ∉ L := fun L hL => splitNl_no_nl u L hL
    have hany : ls.any hasTagB = false := by
      have h1 := hasTagB_joinNl ls hnl
      have h2 : joinNl ls = u := by
        rw [hls]
        exact splitNl_join u
      rw [← h1, h2]
      exact hu_tag
    have hmem : ∀ L ∈ ls, hasTagB L = false := by
      intro L hL
      cases hLb : hasTagB L
      · rfl
      · have hT := List.any_eq_true.mpr ⟨L, hL, hLb⟩
        rw [hany] at hT
        cases hT
    set ls2 := (ls.map trimLine).filter (fun x => !x.isEmpty) with hls2
    have hnl2 : ∀ L ∈ ls2, '\n' ∉ L := by
      intro L hL
      rw [hls2] at hL
      obtain ⟨L0, hL0, rfl⟩ := List.mem_map.mp (List.mem_filter.mp hL).1
      intro hmem2
      exact hnl L0 hL0 (mem_trimLine hmem2)
    have htag2 : ∀ L ∈ ls2, hasTagB L = false := by
      intro L hL
      rw [hls2] at hL
      obtain ⟨L0, hL0, rfl⟩ := List.mem_map.mp (List.mem_filter.mp hL).1
      exact hasTagB_trimLine L0 (hmem L0 hL0)
    rw [hasTagB_joinNl ls2 hnl2]
    cases hA : ls2.any hasTagB
    · rfl
    · obtain ⟨L, hL, hLb⟩ := List.any_eq_true.mp hA
      rw [htag2 L hL] at hLb
      cases hLb

/-! ## Each `<br>`-family tag is replaced by a newline -/

theorem dropWhile_all_append {w x : List Char} (p : Char → Bool)
    (hw : ∀ c ∈ w, p c = true) : (w ++ x).dropWhile p = x.dropWhile p := by
  induction w with
  | nil => rfl
  | cons c w' ih =>
    rw [List.cons_append, List.dropWhile_cons_of_pos (hw c (List.mem_cons_self c w'))]
    exact ih (fun d hd => hw d (List.mem_cons_of_mem c hd))

theorem dropWhile_append_pos {a : List Char} {p : Char → Bool}
    (h : a.dropWhile p ≠ []) (x : List Char) :
    (a ++ x).dropWhile p = a.dropWhile p ++ x := by
  induction a with
  | nil => simp [List.dropWhile] at h
  | cons c a' ih =>
    by_cases hc : p c
    · rw [List.dropWhile_cons_of_pos hc] at h ⊢
      rw [List.cons_append, List.dropWhile_cons_of_pos hc]
      exact ih h
    · rw [List.dropWhile_cons_of_neg hc] at h ⊢
      rw [List.cons_append, List.dropWhile_cons_of_neg hc]

theorem brTail_tag {w sl : List Char} (hw : ∀ c ∈ w, jsWs c = true)
    (hsl : sl = [] ∨ sl = ['/']) (ys : List Char) :
    brTail (w ++ sl ++ '>' :: ys) = some ys := by
  unfold brTail
  rw [List.append_assoc, dropWhile_all_append jsWs hw]
  rcases hsl with rfl | rfl
  · rw [List.nil_append, List.dropWhile_cons_of_neg (by decide), brTailCore_cons,
      if_pos (by decide)]
  · rw [List.cons_append, List.dropWhile_cons_of_neg (by decide), brTailCore_cons,
      if_neg (by decide), if_pos (by decide), List.nil_append, brSlash_cons,
      if_pos (by decide)]

theorem brMatch_tag {tag : List Char} (ht : IsBrTagL tag) (ys : List Char) :
    brMatch (tag ++ ys) = some ys := by
  obtain ⟨b, r, w, sl, rfl, hb, hr, hw, hsl⟩ := ht
  show brMatch ('<' :: b :: r :: ((w ++ sl ++ ['>']) ++ ys)) = some ys
  rw [brMatch_cons3, if_pos]
  · have heq : (w ++ sl ++ ['>']) ++ ys = w ++ sl ++ '>' :: ys := by simp
    rw [heq]
    exact brTail_tag hw hsl ys
  · rcases hb with rfl | rfl <;> rcases hr with rfl | rfl <;> decide

theorem brTail_append_lt (rest z' : List Char) :
    brTail (rest ++ '<' :: z') = (brTail rest).map (fun r => r ++ '<' :: z') := by
  unfold brTail
  rcases hd : rest.dropWhile jsWs with _ | ⟨c, t⟩
  · have hall : ∀ x ∈ rest, jsWs x = true := List.dropWhile_eq_nil_iff.mp hd
    rw [dropWhile_all_append jsWs hall, List.dropWhile_cons_of_neg (by decide),
      brTailCore_cons, if_neg (by decide), if_neg (by decide)]
    rfl

  · rw [dropWhile_append_pos (by rw [hd]; simp) ('<' :: z'), hd, List.cons_append,
      brTailCore_cons, brTailCore_cons]
    by_cases hgt : c == '>'
    · rw [if_pos hgt, if_pos hgt]
      rfl
    · rw [if_neg hgt, if_neg hgt]
      by_cases hsl : c == '/'
      · rw [if_pos hsl, if_pos hsl]
        cases t with
        | nil =>
          rw [List.nil_append, brSlash_cons, if_neg (by decide)]
          rfl
        | cons t0 t1 =>
          rw [List.cons_append, brSlash_cons, brSlash_cons]
          by_cases ht0 : t0 == '>'
          · rw [if_pos ht0, if_pos ht0]
            rfl
          · rw [if_neg ht0, if_neg ht0]
            rfl
      · rw [if_neg hsl, if_neg hsl]
        rfl

theorem brMatch_append {xs z' : List Char} (hne : xs ≠ []) :
    brMatch (xs ++ '<' :: z') = (brMatch xs).map (fun r => r ++ '<' :: z') := by
  have h1 : ('<' == 'b' || '<' == 'B') = false := by decide
  have h2 : ('<' == 'r' || '<' == 'R') = false := by decide
  rcases xs with _ | ⟨x1, _ | ⟨x2, xs3⟩⟩
  · exact absurd rfl hne
  · cases z' with
    | nil => rfl
    | cons za zb =>
      show brMatch (x1 :: '<' :: za :: zb) = _
      rw [brMatch_cons3, h1]
      simp [brMatch]
  · rcases xs3 with _ | ⟨x3, rest⟩
    · show brMatch (x1 :: x2 :: '<' :: z') = _
      rw [brMatch_cons3, h2]
      simp [brMatch]
    · show brMatch (x1 :: x2 :: x3 :: (rest ++ '<' :: z')) = _
      rw [brMatch_cons3, brMatch_cons3]
      by_cases hC : x1 == '<' && (x2 == 'b' || x2 == 'B') && (x3 == 'r' || x3 == 'R')
      · rw [if_pos hC, if_pos hC]
        exact brTail_append_lt rest z'
      · rw [if_neg hC, if_neg hC]
        rfl

theorem replaceBr_tag {tag : List Char} (ht : IsBrTagL tag) (ys : List Char) :
    replaceBr (tag ++ ys) = '\n' :: replaceBr ys := by
  have hbm := brMatch_tag ht ys
  obtain ⟨b, r, w, sl, rfl, hb, hr, hw, hsl⟩ := ht
  show replaceBr ('<' :: (b :: r :: ((w ++ sl ++ ['>']) ++ ys))) = _
  rw [replaceBr_cons]
  have : brMatch ('<' :: (b :: r :: ((w ++ sl ++ ['>']) ++ ys))) = some ys := hbm
  rw [this]

theorem replaceBr_insert_aux : ∀ (n : Nat) (xs : List Char), xs.length ≤ n →
    ∀ (tag ys : List Char), IsBrTagL tag →
    replaceBr (xs ++ tag ++ ys) = replaceBr xs ++ '\n' :: replaceBr ys := by
  intro n
  induction n with
  | zero =>
    intro xs hxs tag ys ht
    have hx : xs = [] := List.length_eq_zero.mp (Nat.le_zero.mp hxs)
    subst hx
    simp only [List.nil_append]
    exact replaceBr_tag ht ys
  | succ m ih =>
    intro xs hxs tag ys ht
    cases xs with
    | nil =>
      simp only [List.nil_append]
      exact replaceBr_tag ht ys
    | cons c xs' =>
      obtain ⟨b, r, w, sl, htag, hb, hr, hw, hsl⟩ := ht
      have hzform : tag ++ ys = '<' :: (b :: r :: ((w ++ sl ++ ['>']) ++ ys)) := by
        rw [htag]
        rfl
      have hsplit : (c :: xs') ++ tag ++ ys =
          c :: (xs' ++ (tag ++ ys)) := by simp
      rw [hsplit, replaceBr_cons]
      have hbm : brMatch (c :: (xs' ++ (tag ++ ys))) =
          (brMatch (c :: xs')).map
            (fun r0 => r0 ++ '<' :: (b :: r :: ((w ++ sl ++ ['>']) ++ ys))) := by
        have : c :: (xs' ++ (tag ++ ys)) =
            (c :: xs') ++ '<' :: (b :: r :: ((w ++ sl ++ ['>']) ++ ys)) := by
          rw [← hzform]
          simp
        rw [this]
        exact brMatch_append (by simp)
      rw [hbm]
      simp at hxs
      cases hm : brMatch (c :: xs') with
      | some rem =>
        have hlen := brMatch_length hm
        simp at hlen
        show '\n' :: replaceBr (rem ++ '<' :: (b :: r :: ((w ++ sl ++ ['>']) ++ ys))) = _
        have : rem ++ '<' :: (b :: r :: ((w ++ sl ++ ['>']) ++ ys)) =
            rem ++ tag ++ ys := by
          rw [← hzform]
          simp
        rw [this, ih rem (by omega) tag ys ⟨b, r, w, sl, htag, hb, hr, hw, hsl⟩]
        rw [replaceBr_cons, hm]
        rfl
      | none =>
        show c :: replaceBr (xs' ++ (tag ++ ys)) = _
        rw [← List.append_assoc,
          ih xs' (by omega) tag ys ⟨b, r, w, sl, htag, hb, hr, hw, hsl⟩]
        rw [replaceBr_cons, hm]
        rfl

/-- Every occurrence of a `<br>`-family tag is turned into a newline by
the first replacement pass. -/
theorem replaceBr_insert (xs tag ys : List Char) (ht : IsBrTagL tag) :
    replaceBr (xs ++ tag ++ ys) = replaceBr xs ++ '\n' :: replaceBr ys :=
  replaceBr_insert_aux xs.length xs le_rfl tag ys ht

/-! ## Each `</div>` tag is replaced by a newline -/

theorem divTail_tag {w : List Char} (hw : ∀ c ∈ w, jsWs c = true) (ys : List Char) :
    divTail (w ++ '>' :: ys) = some ys := by
  unfold divTail
  rw [dropWhile_all_append jsWs hw, List.dropWhile_cons_of_neg (by decide),
    divTailCore_cons, if_pos (by decide)]

theorem divMatch_tag {tag : List Char} (ht : IsDivTagL tag) (ys : List Char) :
    divMatch (tag ++ ys) = some ys := by
  obtain ⟨d, i, v, w, rfl, hd1, hi, hv, hw⟩ := ht
  show divMatch ('<' :: '/' :: d :: i :: v :: ((w ++ ['>']) ++ ys)) = some ys
  rw [divMatch_cons5, if_pos]
  · have heq : (w ++ ['>']) ++ ys = w ++ '>' :: ys := by simp
    rw [heq]
    exact divTail_tag hw ys
  · rcases hd1 with rfl | rfl <;> rcases hi with rfl | rfl <;>
      rcases hv with rfl | rfl <;> decide

theorem divTail_append_lt (rest z' : List Char) :
    divTail (rest ++ '<' :: z') = (divTail rest).map (fun r => r ++ '<' :: z') := by
  unfold divTail
  rcases hd : rest.dropWhile jsWs with _ | ⟨c, t⟩
  · have hall : ∀ x ∈ rest, jsWs x = true := List.dropWhile_eq_nil_iff.mp hd
    rw [dropWhile_all_append jsWs hall, List.dropWhile_cons_of_neg (by decide),
      divTailCore_cons, if_neg (by decide)]
    rfl
  · rw [dropWhile_append_pos (by rw [hd]; simp) ('<' :: z'), hd, List.cons_append,
      divTailCore_cons, divTailCore_cons]
    by_cases hgt : c == '>'
    · rw [if_pos hgt, if_pos hgt]
      rfl
    · rw [if_neg hgt, if_neg hgt]
      rfl

theorem divMatch_append {xs z' : List Char} (hne : xs ≠ []) :
    divMatch (xs ++ '<' :: z') = (divMatch xs).map (fun r => r ++ '<' :: z') := by
  have h1 : ('<' == '/') = false := by decide
  have h2 : ('<' == 'd' || '<' == 'D') = false := by decide
  have h3 : ('<' == 'i' || '<' == 'I') = false := by decide
  have h4 : ('<' == 'v' || '<' == 'V') = false := by decide
  rcases xs with _ | ⟨x1, _ | ⟨x2, _ | ⟨x3, _ | ⟨x4, xs5⟩⟩⟩⟩
  · exact absurd rfl hne
  · rcases z' with _ | ⟨za, _ | ⟨zb, _ | ⟨zc, zd⟩⟩⟩
    · rfl
    · rfl
    · rfl
    · show divMatch (x1 :: '<' :: za :: zb :: zc :: zd) = _
      rw [divMatch_cons5, h1]
      simp [divMatch]
  · rcases z' with _ | ⟨za, _ | ⟨zb, zc⟩⟩
    · rfl
    · rfl
    · show divMatch (x1 :: x2 :: '<' :: za :: zb :: zc) = _
      rw [divMatch_cons5, h2]
      simp [divMatch]
  · rcases z' with _ | ⟨za, zb⟩
    · rfl
    · show divMatch (x1 :: x2 :: x3 :: '<' :: za :: zb) = _
      rw [divMatch_cons5, h3]
      simp [divMatch]
  · show divMatch (x1 :: x2 :: x3 :: x4 :: (xs5 ++ '<' :: z')) = _
    cases xs5 with
    | nil =>
      show divMatch (x1 :: x2 :: x3 :: x4 :: '<' :: z') = _
      rw [divMatch_cons5, h4]
      simp [divMatch]
    | cons x5 rest =>
      show divMatch (x1 :: x2 :: x3 :: x4 :: x5 :: (rest ++ '<' :: z')) = _
      rw [divMatch_cons5, divMatch_cons5]
      by_cases hC : x1 == '<' && x2 == '/' && (x3 == 'd' || x3 == 'D') &&
          (x4 == 'i' || x4 == 'I') && (x5 == 'v' || x5 == 'V')
      · rw [if_pos hC, if_pos hC]
        exact divTail_append_lt rest z'
      · rw [if_neg hC, if_neg hC]
        rfl

theorem replaceDiv_tag {tag : List Char} (ht : IsDivTagL tag) (ys : List Char) :
    replaceDiv (tag ++ ys) = '\n' :: replaceDiv ys := by
  have hdm := divMatch_tag ht ys
  obtain ⟨d, i, v, w, rfl, hd1, hi, hv, hw⟩ := ht
  show replaceDiv ('<' :: ('/' :: d :: i :: v :: ((w ++ ['>']) ++ ys))) = _
  rw [replaceDiv_cons]
  have : divMatch ('<' :: ('/' :: d :: i :: v :: ((w ++ ['>']) ++ ys))) = some ys := hdm
  rw [this]

theorem replaceDiv_insert_aux : ∀ (n : Nat) (xs : List Char), xs.length ≤ n →
    ∀ (tag ys : List Char), IsDivTagL tag →
    replaceDiv (xs ++ tag ++ ys) = replaceDiv xs ++ '\n' :: replaceDiv ys := by
  intro n
  induction n with
  | zero =>
    intro xs hxs tag ys ht
    have hx : xs = [] := List.length_eq_zero.mp (Nat.le_zero.mp hxs)
    subst hx
    simp only [List.nil_append]
    exact replaceDiv_tag ht ys
  | succ m ih =>
    intro xs hxs tag ys ht
    cases xs with
    | nil =>
      simp only [List.nil_append]
      exact replaceDiv_tag ht ys
    | cons c xs' =>
      obtain ⟨d, i, v, w, htag, hd1, hi, hv, hw⟩ := ht
      have hzform : tag ++ ys = '<' :: ('/' :: d :: i :: v :: ((w ++ ['>']) ++ ys)) := by
        rw [htag]
        rfl
      have hsplit : (c :: xs') ++ tag ++ ys = c :: (xs' ++ (tag ++ ys)) := by simp
      rw [hsplit, replaceDiv_cons]
      have hdm : divMatch (c :: (xs' ++ (tag ++ ys))) =
          (divMatch (c :: xs')).map
            (fun r0 => r0 ++ '<' :: ('/' :: d :: i :: v :: ((w ++ ['>']) ++ ys))) := by
        have : c :: (xs' ++ (tag ++ ys)) =
            (c :: xs') ++ '<' :: ('/' :: d :: i :: v :: ((w ++ ['>']) ++ ys)) := by
          rw [← hzform]
          simp
        rw [this]
        exact divMatch_append (by simp)
      rw [hdm]
      simp at hxs
      cases hm : divMatch (c :: xs') with
      | some rem =>
        have hlen := divMatch_length hm
        simp at hlen
        show '\n' :: replaceDiv (rem ++ '<' :: ('/' :: d :: i :: v :: ((w ++ ['>']) ++ ys))) = _
        have : rem ++ '<' :: ('/' :: d :: i :: v :: ((w ++ ['>']) ++ ys)) =
            rem ++ tag ++ ys := by
          rw [← hzform]
          simp
        rw [this, ih rem (by omega) tag ys ⟨d, i, v, w, htag, hd1, hi, hv, hw⟩]
        rw [replaceDiv_cons, hm]
        rfl
      | none =>
        show c :: replaceDiv (xs' ++ (tag ++ ys)) = _
        rw [← List.append_assoc,
          ih xs' (by omega) tag ys ⟨d, i, v, w, htag, hd1, hi, hv, hw⟩]
        rw [replaceDiv_cons, hm]
        rfl

/-- Every occurrence of a `</div>` tag is turned into a newline by the
second replacement pass. -/
theorem replaceDiv_insert (xs tag ys : List Char) (ht : IsDivTagL tag) :
    replaceDiv (xs ++ tag ++ ys) = replaceDiv xs ++ '\n' :: replaceDiv ys :=
  replaceDiv_insert_aux xs.length xs le_rfl tag ys ht

/-! ## Correctness of the `\b[A-Z]{3}\d{8}\b` scanner -/

theorem isRefCode_length {m : List Char} (h : isRefCode m = true) : m.length = 11 := by
  unfold isRefCode at h
  simp [Bool.and_eq_true] at h
  exact h.1.1

theorem take_of_refcode {m : List Char} (post : List Char) (h : isRefCode m = true) :
    (m ++ post).take 11 = m ∧ (m ++ post).drop 11 = post :=
  ⟨List.take_left' (isRefCode_length h), List.drop_left' (isRefCode_length h)⟩

theorem BMA_nil (w : Bool) (i : Nat) : ¬ BMA w [] i := by
  rintro ⟨pre, m, post, heq, _, hm, _, _⟩
  obtain ⟨h1, _⟩ := List.append_eq_nil.mp heq.symm
  obtain ⟨_, hm2⟩ := List.append_eq_nil.mp h1
  rw [hm2] at hm
  simp [isRefCode] at hm

theorem boundaryL_indep (w1 w2 : Bool) : ∀ (l : List Char), l ≠ [] →
    (boundaryL w1 l ↔ boundaryL w2 l) := by
  intro l
  induction l with
  | nil => intro h; exact absurd rfl h
  | cons c t ih =>
    intro _
    cases t with
    | nil => exact Iff.rfl
    | cons q qre => exact ih (by simp)

theorem BMA_shift (w : Bool) (c : Char) (t : List Char) (i : Nat) :
    BMA w (c :: t) (i + 1) ↔ BMA (isWordCh c) t i := by
  constructor
  · rintro ⟨pre, m, post, heq, hlen, hm, hbl, hbr⟩
    cases pre with
    | nil => simp at hlen
    | cons p0 pre' =>
      rw [List.cons_append, List.cons_append] at heq
      injection heq with he1 he2
      refine ⟨pre', m, post, he2, ?_, hm, ?_, hbr⟩
      · simp at hlen
        omega
      · subst he1
        cases pre' with
        | nil => exact hbl
        | cons q qre => exact (boundaryL_indep w (isWordCh c) (q :: qre) (by simp)).mp hbl
  · rintro ⟨pre, m, post, heq, hlen, hm, hbl, hbr⟩
    refine ⟨c :: pre, m, post, ?_, ?_, hm, ?_, hbr⟩
    · rw [List.cons_append, List.cons_append, ← heq]
    · simp
      omega
    · cases pre with
      | nil => exact hbl
      | cons q qre => exact (boundaryL_indep (isWordCh c) w (q :: qre) (by simp)).mp hbl

theorem scanRef_cons (w : Bool) (c : Char) (t : List Char) :
    scanRef w (c :: t) =
      (if !w && isRefCode ((c :: t).take 11) && boundaryR ((c :: t).drop 11) then
        some ((c :: t).take 11).asString
      else scanRef (isWordCh c) t) := rfl

theorem BMA_zero_iff (w : Bool) (l : List Char) :
    BMA w l 0 ↔ (w = false ∧ isRefCode (l.take 11) = true ∧
      boundaryR (l.drop 11) = true) := by
  constructor
  · rintro ⟨pre, m, post, heq, hlen, hm, hbl, hbr⟩
    have hpre : pre = [] := List.length_eq_zero.mp hlen
    subst hpre
    rw [List.nil_append] at heq
    subst heq
    obtain ⟨ht, hd⟩ := take_of_refcode post hm
    refine ⟨hbl, ?_, ?_⟩
    · rw [ht]
      exact hm
    · rw [hd]
      exact hbr
  · rintro ⟨hw, hrc, hbr⟩
    refine ⟨[], l.take 11, l.drop 11, ?_, rfl, hrc, hw, hbr⟩
    rw [List.nil_append, List.take_append_drop]

theorem scanRef_correct : ∀ (l : List Char) (w : Bool),
    (scanRef w l = none → ∀ i, ¬ BMA w l i) ∧
    (∀ m, scanRef w l = some m →
      ∃ i, BMA w l i ∧ m = ((l.drop i).take 11).asString ∧
        ∀ j, j < i → ¬ BMA w l j) := by
  intro l
  induction l with
  | nil =>
    intro w
    constructor
    · intro _ i
      exact BMA_nil w i
    · intro m h
      simp [scanRef] at h
  | cons c t ih =>
    intro w
    constructor
    · intro hnone i
      rw [scanRef_cons] at hnone
      by_cases hcond : !w && isRefCode ((c :: t).take 11) && boundaryR ((c :: t).drop 11)
      · rw [if_pos hcond] at hnone
        simp at hnone
      · rw [if_neg hcond] at hnone
        cases i with
        | zero =>
          intro hB
          obtain ⟨hw, hrc, hbr⟩ := (BMA_zero_iff w (c :: t)).mp hB
          exact hcond (by rw [hw, hrc, hbr]; rfl)
        | succ i' =>
          intro hB
          exact (ih (isWordCh c)).1 hnone i' ((BMA_shift w c t i').mp hB)
    · intro m hsome
      rw [scanRef_cons] at hsome
      by_cases hcond : !w && isRefCode ((c :: t).take 11) && boundaryR ((c :: t).drop 11)
      · rw [if_pos hcond] at hsome
        refine ⟨0, ?_, ?_, ?_⟩
        · apply (BMA_zero_iff w (c :: t)).mpr
          simp [Bool.and_eq_true] at hcond
          exact ⟨hcond.1.1, hcond.1.2, hcond.2⟩
        · rw [List.drop_zero]
          exact (Option.some.inj hsome).symm
        · intro j hj
          exact absurd hj (Nat.not_lt_zero j)
      · rw [if_neg hcond] at hsome
        obtain ⟨i, hB, hm, hleft⟩ := (ih (isWordCh c)).2 m hsome
        refine ⟨i + 1, (BMA_shift w c t i).mpr hB, ?_, ?_⟩
        · rw [List.drop_succ_cons]
          exact hm
        · intro j hj
          cases j with
          | zero =>
            intro hB0
            obtain ⟨hw, hrc, hbr⟩ := (BMA_zero_iff w (c :: t)).mp hB0
            exact hcond (by rw [hw, hrc, hbr]; rfl)
          | succ j' =>
            intro hBj
            exact hleft j' (by omega) ((BMA_shift w c t j').mp hBj)

theorem extractRef_correct (s : String) :
    (extractRef s = none → ∀ i, ¬ BMA false s.data i) ∧
    (∀ m, extractRef s = some m →
      ∃ i, BMA false s.data i ∧ m = ((s.data.drop i).take 11).asString ∧
        ∀ j, j < i → ¬ BMA false s.data j) := by
  unfold extractRef
  by_cases hs : s = ""
  · rw [if_pos hs]
    subst hs
    constructor
    · intro _ i
      exact BMA_nil false i
    · intro m h
      simp at h
  · rw [if_neg hs]
    exact scanRef_correct s.data false

/-! ## Substring containment and filter composition -/

theorem leadsWith_iff : ∀ (n h : List Char), leadsWith n h = true ↔ ∃ r, h = n ++ r := by
  intro n
  induction n with
  | nil =>
    intro h
    simp [leadsWith]
  | cons a as ih =>
    intro h
    cases h with
    | nil => simp [leadsWith]
    | cons b bs =>
      simp only [leadsWith, Bool.and_eq_true, beq_iff_eq]
      constructor
      · rintro ⟨rfl, h2⟩
        obtain ⟨r, rfl⟩ := (ih bs).mp h2
        exact ⟨r, rfl⟩
      · rintro ⟨r, hr⟩
        rw [List.cons_append] at hr
        injection hr with hr1 hr2
        exact ⟨hr1.symm, (ih bs).mpr ⟨r, hr2⟩⟩

theorem infixAt_iff : ∀ (h n : List Char), infixAt n h = true ↔ ∃ a b, h = a ++ n ++ b := by
  intro h
  induction h with
  | nil =>
    intro n
    show n.isEmpty = true ↔ _
    constructor
    · intro he
      have hn : n = [] := by
        cases n with
        | nil => rfl
        | cons x xs => simp [List.isEmpty] at he
      exact ⟨[], [], by simp [hn]⟩
    · rintro ⟨a, b, hab⟩
      obtain ⟨h1, _⟩ := List.append_eq_nil.mp hab.symm
      obtain ⟨_, h4⟩ := List.append_eq_nil.mp h1
      simp [h4, List.isEmpty]
  | cons c t ih =>
    intro n
    rw [show infixAt n (c :: t) = (leadsWith n (c :: t) || infixAt n t) from rfl,
      Bool.or_eq_true, leadsWith_iff, ih]
    constructor
    · rintro (⟨r, hr⟩ | ⟨a, b, hab⟩)
      · exact ⟨[], r, by simp [hr]⟩
      · exact ⟨c :: a, b, by simp [hab]⟩
    · rintro ⟨a, b, hab⟩
      cases a with
      | nil =>
        left
        exact ⟨b, by simpa using hab⟩
      | cons a0 a' =>
        right
        rw [List.cons_append, List.cons_append] at hab
        injection hab with h1 h2
        exact ⟨a', b, h2⟩

theorem filter_and {α : Type} (p q : α → Bool) : ∀ l : List α,
    (l.filter p).filter q = l.filter (fun a => p a && q a) := by
  intro l
  induction l with
  | nil => rfl
  | cons x xs ih =>
    by_cases hp : p x
    · by_cases hq : q x
      · simp [List.filter_cons, hp, hq, ih]
      · simp [List.filter_cons, hp, hq, ih]
    · simp [List.filter_cons, hp, ih]

/-! # Claims -/

/-- Claim C1, amended.  For every raw record: if the explicit reference
field is present and non-empty, the normalized reference equals it
verbatim; otherwise the reference is the first *word-boundary-delimited*
substring of the markup-stripped description matching
`\b[A-Z]{3}[0-9]{8}\b` (null when no such boundary-delimited match
exists).  The original claim omitted the `\b` boundaries of the source
regex and is refuted by `C1_reference_boundary_cex`. -/
theorem C1_reference_derivation : ∀ p : RawProps,
    (∀ r, p.REFERENCENUM = JStr.str r → r ≠ "" →
      (normalizeOutage p).reference = some r) ∧
    (p.REFERENCENUM.truthy = false →
      ((normalizeOutage p).reference = none →
        ∀ i, ¬ BMA false (normalizeOutage p).description.data i) ∧
      (∀ m, (normalizeOutage p).reference = some m →
        ∃ i, BMA false (normalizeOutage p).description.data i ∧
          m = (((normalizeOutage p).description.data.drop i).take 11).asString ∧
          ∀ j, j < i → ¬ BMA false (normalizeOutage p).description.data j)) := by
  intro p
  constructor
  · intro r hr hne
    show referenceOf p.REFERENCENUM (stripHtmlStr (jsOrEmptyS p.DESCRIPTION)) = some r
    unfold referenceOf
    rw [hr]
    rw [if_pos (by simp [JStr.truthy, hne])]
  · intro htr
    have href : (normalizeOutage p).reference =
        extractRef (normalizeOutage p).description := by
      show referenceOf p.REFERENCENUM (stripHtmlStr (jsOrEmptyS p.DESCRIPTION)) = _
      unfold referenceOf
      rw [if_neg (by rw [htr]; simp)]
      rfl
    rw [href]
    exact extractRef_correct (normalizeOutage p).description

/-- Witness for C1 at a record with an explicit reference field. -/
theorem C1_reference_derivation_witness :
    (normalizeOutage demoRawCastlebar).reference = some "MAY00200000" :=
  (C1_reference_derivation demoRawCastlebar).1 "MAY00200000" rfl (by decide)

/-- Counterexample to C1 as stated: the description `"ABC123456789"`
contains `"ABC12345678"` as its first substring matching
`[A-Z]{3}[0-9]{8}`, yet the code's regex requires a trailing `\b`, so
the normalized reference is null, not that substring. -/
theorem C1_reference_boundary_cex :
    specFirstRef (normalizeOutage refDigitsRaw).description = some "ABC12345678" ∧
    (normalizeOutage refDigitsRaw).reference = none ∧
    (normalizeOutage refDigitsRaw).reference ≠
      specFirstRef (normalizeOutage refDigitsRaw).description := by
  refine ⟨rfl, rfl, by decide⟩

/-- Claim C2, amended.  When the start (or end) epoch is literally 0,
`formatDate` treats it as a valid epoch — the human-readable field is
non-null — but the epoch passthrough `props.STARTDATE || null` coerces
the falsy 0 to null, so the normalized epoch field is null, not 0.  The
human field of a numeric epoch is null exactly when the value is outside
the JS `Date` range, and null when the epoch is missing or null.  The
original claim's assertion that the epoch field preserves 0 is refuted
by `C2_epoch_zero_cex`. -/
theorem C2_epoch_zero : ∀ p : RawProps,
    (p.STARTDATE = JNum.num 0 →
      (normalizeOutage p).startdate_epoch = none ∧
      (normalizeOutage p).startdate_human = some (toLocaleStringEnIE 0)) ∧
    (p.ENDDATE = JNum.num 0 →
      (normalizeOutage p).enddate_epoch = none ∧
      (normalizeOutage p).enddate_human = some (toLocaleStringEnIE 0)) ∧
    (∀ n : Int, p.STARTDATE = JNum.num n →
      ((normalizeOutage p).startdate_human = none ↔ maxDateMillis < n.natAbs)) ∧
    ((p.STARTDATE = JNum.undef ∨ p.STARTDATE = JNum.jnull) →
      (normalizeOutage p).startdate_human = none) := by
  intro p
  refine ⟨?_, ?_, ?_, ?_⟩
  · intro h
    constructor
    · show epochOrNull p.STARTDATE = none
      rw [h]
      rfl
    · show formatDate p.STARTDATE = _
      rw [h]
      rfl
  · intro h
    constructor
    · show epochOrNull p.ENDDATE = none
      rw [h]
      rfl
    · show formatDate p.ENDDATE = _
      rw [h]
      rfl
  · intro n h
    have hfd : (normalizeOutage p).startdate_human =
        (if n.natAbs ≤ maxDateMillis then some (toLocaleStringEnIE n) else none) := by
      show formatDate p.STARTDATE = _
      rw [h]
      rfl
    rw [hfd]
    constructor
    · intro hn
      by_cases hc : n.natAbs ≤ maxDateMillis
      · rw [if_pos hc] at hn
        simp at hn
      · exact not_le.mp hc
    · intro hlt
      rw [if_neg (not_le.mpr hlt)]
  · rintro (h | h) <;> (show formatDate p.STARTDATE = none; rw [h]) <;> rfl

/-- Witness for C2 at a record whose start epoch is literally 0. -/
theorem C2_epoch_zero_witness :
    (normalizeOutage zeroEpochRaw).startdate_epoch = none ∧
    (normalizeOutage zeroEpochRaw).startdate_human = some (toLocaleStringEnIE 0) :=
  (C2_epoch_zero zeroEpochRaw).1 rfl

/-- Counterexample to C2 as stated: with `STARTDATE = 0` the normalized
epoch field is null (the `|| null` default swallows the falsy 0), while
the human-readable field is non-null. -/
theorem C2_epoch_zero_cex :
    (normalizeOutage zeroEpochRaw).startdate_epoch = none ∧
    (normalizeOutage zeroEpochRaw).startdate_epoch ≠ some 0 ∧
    (normalizeOutage zeroEpochRaw).startdate_human ≠ none := by
  refine ⟨rfl, by decide, by decide⟩

/-- Claim C3, amended.  For a raw record missing every optional field,
the string fields `title`, `status`, `location`, `county`,
`description` are the empty string and the epoch, human-date and
reference fields are null — but `globalid` (and `objectid`) are passed
through unchanged, so a missing `GLOBALID` yields an absent
(undefined) `globalid`, not the empty string.  The original claim's
inclusion of `globalId` among the empty-string fields is refuted by
`C3_missing_fields_cex`. -/
theorem C3_missing_fields : ∀ p : RawProps,
    p.GLOBALID = JStr.undef → p.TITLE = JStr.undef → p.STATUS = JStr.undef →
    p.LOCATION = JStr.undef → p.COUNTY = JStr.undef → p.STARTDATE = JNum.undef →
    p.ENDDATE = JNum.undef → p.DESCRIPTION = JStr.undef →
    p.REFERENCENUM = JStr.undef →
    normalizeOutage p =
      ⟨p.OBJECTID, JStr.undef, "", "", "", "", none, none, none, none, none, ""⟩ := by
  intro p h1 h2 h3 h4 h5 h6 h7 h8 h9
  unfold normalizeOutage
  rw [h1, h2, h3, h4, h5, h6, h7, h8, h9]
  rfl

/-- Witness for C3 at the all-missing record. -/
theorem C3_missing_fields_witness :
    normalizeOutage allUndefRaw =
      ⟨JNum.undef, JStr.undef, "", "", "", "", none, none, none, none, none, ""⟩ :=
  C3_missing_fields allUndefRaw rfl rfl rfl rfl rfl rfl rfl rfl rfl

/-- Counterexample to C3 as stated: on the all-missing record the
normalized `globalid` is undefined (passed through), not `""`. -/
theorem C3_missing_fields_cex :
    (normalizeOutage allUndefRaw).globalid = JStr.undef ∧
    (normalizeOutage allUndefRaw).globalid ≠ JStr.str "" :=
  ⟨rfl, by decide⟩

/-- Claim C4, amended.  In the markup-stripping pipeline: every
`<br>`/`<br/>`-family tag is replaced by a newline in the first pass;
every closing `</div>` tag (the only closing block-level tag the source
handles — other closing block-level tags such as `</p>` are merely
deleted by the third pass) is replaced by a newline in the second pass;
the remaining-tag pass, splitting into lines, trimming, dropping empty
lines and rejoining follow; and the resulting description contains no
intra-line angle-bracket markup (no `<` later followed by `>` on the
same line).  The original claim's "closing block-level tags become
newlines" is refuted for `</p>` by `C4_markup_cex`. -/
theorem C4_markup_stripping :
    (∀ xs tag ys, IsBrTagL tag →
      replaceBr (xs ++ tag ++ ys) = replaceBr xs ++ '\n' :: replaceBr ys) ∧
    (∀ xs tag ys, IsDivTagL tag →
      replaceDiv (xs ++ tag ++ ys) = replaceDiv xs ++ '\n' :: replaceDiv ys) ∧
    (∀ s : String, hasTagB (stripHtmlStr s).data = false) ∧
    (∀ s : String, s ≠ "" → stripHtmlStr s =
      ⟨joinNl (((splitNl (removeTags (replaceDiv (replaceBr s.data)))).map
        trimLine).filter (fun x => !x.isEmpty))⟩) ∧
    (∀ p : RawProps, (normalizeOutage p).description =
      stripHtmlStr (jsOrEmptyS p.DESCRIPTION)) :=
  ⟨replaceBr_insert, replaceDiv_insert, stripHtml_no_markup,
   fun s hs => by rw [stripHtmlStr, if_neg hs]; rfl, fun _ => rfl⟩

/-- Witness for C4: a concrete `<br>` tag is replaced by a newline. -/
theorem C4_markup_stripping_witness :
    IsBrTagL "<br>".data ∧
    replaceBr "a<br>b".data = replaceBr "a".data ++ '\n' :: replaceBr "b".data := by
  have htag : IsBrTagL "<br>".data :=
    ⟨'b', 'r', [], [], rfl, Or.inl rfl, Or.inl rfl, by intro c hc; simp at hc,
     Or.inl rfl⟩
  refine ⟨htag, ?_⟩
  have h := C4_markup_stripping.1 "a".data "<br>".data "b".data htag
  have heq : "a<br>b".data = "a".data ++ "<br>".data ++ "b".data := rfl
  rw [heq, h]

/-- Counterexample to C4 as stated: on `"a<br>b</p>c"` the closing
block-level tag `</p>` is deleted, not turned into a newline, so the
source pipeline yields `"a\nbc"` while the spec's words yield
`"a\nb\nc"`. -/
theorem C4_markup_cex :
    (normalizeOutage brPRaw).description = "a\nbc" ∧
    specStripHtml "a<br>b</p>c" = "a\nb\nc" ∧
    (normalizeOutage brPRaw).description ≠
      specStripHtml (jsOrEmptyS brPRaw.DESCRIPTION) := by
  refine ⟨rfl, rfl, by decide⟩

/-- Claim C5, confirmed.  `normalizeOutage` is a total function of the
raw record: every field of the output is given by a total projection of
the input (string fields default to `""`, epoch/reference fields to
null), and in particular the record with every key missing and the
record with every field null both normalize without raising. -/
theorem C5_total :
    (∀ p : RawProps,
      normalizeOutage p =
        ⟨p.OBJECTID, p.GLOBALID, jsOrEmptyS p.TITLE, jsOrEmptyS p.STATUS,
         jsOrEmptyS p.LOCATION, jsOrEmptyS p.COUNTY,
         epochOrNull p.STARTDATE, epochOrNull p.ENDDATE,
         formatDate p.STARTDATE, formatDate p.ENDDATE,
         referenceOf p.REFERENCENUM (stripHtmlStr (jsOrEmptyS p.DESCRIPTION)),
         stripHtmlStr (jsOrEmptyS p.DESCRIPTION)⟩) ∧
    normalizeOutage allUndefRaw =
      ⟨JNum.undef, JStr.undef, "", "", "", "", none, none, none, none, none, ""⟩ ∧
    normalizeOutage allNullRaw =
      ⟨JNum.jnull, JStr.jnull, "", "", "", "", none, none, none, none, none, ""⟩ :=
  ⟨fun _ => rfl, rfl, rfl⟩

/-- Claim C6, confirmed.  A supplied `refnum` parameter is trimmed; if
the trimmed value is empty the filter is skipped entirely; otherwise the
filter keeps exactly the outages whose `reference` equals the trimmed
value by case-sensitive exact string equality. -/
theorem C6_refnum_filter : ∀ (outs : List NormalizedOutage) (r : String),
    (jsTrim r = "" → applyRefnumFilter (refnumParam (some r)) outs = outs) ∧
    (jsTrim r ≠ "" →
      refnumParam (some r) = some (jsTrim r) ∧
      ∀ o, o ∈ applyRefnumFilter (refnumParam (some r)) outs ↔
        o ∈ outs ∧ o.reference = some (jsTrim r)) := by
  intro outs r
  constructor
  · intro h
    have hp : refnumParam (some r) = none := by
      show (if jsTrim r = "" then none else some (jsTrim r)) = none
      rw [if_pos h]
    rw [hp]
    rfl
  · intro h
    have hp : refnumParam (some r) = some (jsTrim r) := by
      show (if jsTrim r = "" then none else some (jsTrim r)) = some (jsTrim r)
      rw [if_neg h]
    refine ⟨hp, ?_⟩
    intro o
    rw [hp]
    show o ∈ outs.filter (fun o => o.reference == some (jsTrim r)) ↔ _
    rw [List.mem_filter]
    constructor
    · rintro ⟨h1, h2⟩
      exact ⟨h1, by simpa using h2⟩
    · rintro ⟨h1, h2⟩
      exact ⟨h1, by simp [h2]⟩

/-- Witness for C6 with a padded refnum parameter against the demo
outage list. -/
theorem C6_refnum_filter_witness :
    jsTrim " MAY00200000 " ≠ "" ∧
    (normalizeOutage demoRawCastlebar ∈
        applyRefnumFilter (refnumParam (some " MAY00200000 ")) demoOuts ↔
      normalizeOutage demoRawCastlebar ∈ demoOuts ∧
      (normalizeOutage demoRawCastlebar).reference = some (jsTrim " MAY00200000 ")) :=
  ⟨by decide,
   ((C6_refnum_filter demoOuts " MAY00200000 ").2 (by decide)).2
     (normalizeOutage demoRawCastlebar)⟩

/-- Claim C7, confirmed.  A supplied `location` parameter is trimmed and
lowercased; if the result is empty the filter is skipped; otherwise the
filter keeps exactly the outages whose lowercased `location` contains
the substring OR whose lowercased `description` contains it. -/
theorem C7_location_filter : ∀ (outs : List NormalizedOutage) (lraw : String),
    locationParam (some lraw) = jsToLower (jsTrim lraw) ∧
    (jsToLower (jsTrim lraw) = "" →
      applyLocationFilter (locationParam (some lraw)) outs = outs) ∧
    (jsToLower (jsTrim lraw) ≠ "" →
      ∀ o, o ∈ applyLocationFilter (locationParam (some lraw)) outs ↔
        o ∈ outs ∧
        ((∃ a b, (jsToLower o.location).data =
            a ++ (jsToLower (jsTrim lraw)).data ++ b) ∨
         (∃ a b, (jsToLower o.description).data =
            a ++ (jsToLower (jsTrim lraw)).data ++ b))) := by
  intro outs lraw
  have hp : locationParam (some lraw) = jsToLower (jsTrim lraw) := rfl
  refine ⟨hp, ?_, ?_⟩
  · intro h
    rw [hp, h]
    rfl
  · intro h o
    rw [hp]
    unfold applyLocationFilter
    rw [if_neg h, List.mem_filter]
    constructor
    · rintro ⟨h1, h2⟩
      refine ⟨h1, ?_⟩
      have h2' : strContains (jsToLower o.location) (jsToLower (jsTrim lraw)) = true ∨
          strContains (jsToLower o.description) (jsToLower (jsTrim lraw)) = true := by
        simpa using h2
      rcases h2' with hC | hC
      · exact Or.inl ((infixAt_iff _ _).mp hC)
      · exact Or.inr ((infixAt_iff _ _).mp hC)
    · rintro ⟨h1, h2⟩
      refine ⟨h1, ?_⟩
      rcases h2 with hC | hC
      · have hC' := (infixAt_iff _ _).mpr hC
        simp [strContains, hC']
      · have hC' := (infixAt_iff _ _).mpr hC
        simp [strContains, hC']

/-- Witness for C7 with a padded mixed-case location parameter matching
the demo record's location field. -/
theorem C7_location_filter_witness :
    jsToLower (jsTrim " BALLina ") ≠ "" ∧
    (normalizeOutage demoRawBallina ∈
        applyLocationFilter (locationParam (some " BALLina ")) demoOuts ↔
      normalizeOutage demoRawBallina ∈ demoOuts ∧
      ((∃ a b, (jsToLower (normalizeOutage demoRawBallina).location).data =
          a ++ (jsToLower (jsTrim " BALLina ")).data ++ b) ∨
       (∃ a b, (jsToLower (normalizeOutage demoRawBallina).description).data =
          a ++ (jsToLower (jsTrim " BALLina ")).data ++ b))) :=
  ⟨by decide,
   ((C7_location_filter demoOuts " BALLina ").2.2 (by decide))
     (normalizeOutage demoRawBallina)⟩

/-- Claim C8, confirmed.  With neither filter supplied the outage list
passes through unchanged in content and order; with both filters the
result is the single filter by the conjunction of the two predicates;
and any filter combination yields a sublist of the input (relative
order preserved, no re-sorting). -/
theorem C8_filter_compose : ∀ outs : List NormalizedOutage,
    applyLocationFilter (locationParam none)
      (applyRefnumFilter (refnumParam none) outs) = outs ∧
    (∀ (r lf : String), lf ≠ "" →
      applyLocationFilter lf (applyRefnumFilter (some r) outs) =
        outs.filter (fun o => (o.reference == some r) &&
          (strContains (jsToLower o.location) lf ||
           strContains (jsToLower o.description) lf))) ∧
    (∀ (rn : Option String) (lf : String),
      List.Sublist (applyLocationFilter lf (applyRefnumFilter rn outs)) outs) := by
  intro outs
  refine ⟨?_, ?_, ?_⟩
  · have h1 : refnumParam none = none := rfl
    have h2 : locationParam none = "" := rfl
    rw [h1, h2]
    rfl
  · intro r lf h
    show applyLocationFilter lf (outs.filter _) = _
    unfold applyLocationFilter
    rw [if_neg h]
    exact filter_and _ _ outs
  · intro rn lf
    have s1 : List.Sublist (applyRefnumFilter rn outs) outs := by
      cases rn with
      | none => exact List.Sublist.refl outs
      | some r => exact List.filter_sublist outs
    have s2 : List.Sublist (applyLocationFilter lf (applyRefnumFilter rn outs))
        (applyRefnumFilter rn outs) := by
      unfold applyLocationFilter
      by_cases hl : lf = ""
      · rw [if_pos hl]
      · rw [if_neg hl]
        exact List.filter_sublist _
    exact s2.trans s1

/-- Witness for C8 on the demo outage list. -/
theorem C8_filter_compose_witness :
    applyLocationFilter (locationParam none)
      (applyRefnumFilter (refnumParam none) demoOuts) = demoOuts ∧
    applyLocationFilter "ballina" (applyRefnumFilter (some "MAY00200000") demoOuts) =
      demoOuts.filter (fun o => (o.reference == some "MAY00200000") &&
        (strContains (jsToLower o.location) "ballina" ||
         strContains (jsToLower o.description) "ballina")) :=
  ⟨(C8_filter_compose demoOuts).1,
   (C8_filter_compose demoOuts).2.1 "MAY00200000" "ballina" (by decide)⟩

/-- Claim C9, confirmed.  When the `county` query parameter is absent or
empty, the handler answers 400 with the fixed error body, before and
independently of any upstream fetch (the contacted-upstream flag is
false and the response does not depend on the upstream value). -/
theorem C9_missing_county : ∀ (q : Query) (u : Except String (Option (List Feature))),
    (q.county = none ∨ q.county = some "") →
    handleOutages q u =
      (false, ApiResp.badRequest "Missing required parameter: county") := by
  intro q u h
  unfold handleOutages
  rcases h with h | h <;> rw [h] <;> rfl

/-- Witness for C9 at a concrete county-less request. -/
theorem C9_missing_county_witness :
    handleOutages ⟨none, none, none⟩ (Except.ok none) =
      (false, ApiResp.badRequest "Missing required parameter: county") :=
  C9_missing_county ⟨none, none, none⟩ (Except.ok none) (Or.inl rfl)

/-- Claim C10, confirmed.  On the success path with a non-blank
`location` parameter, the echoed `locationFilter` field equals the
trimmed lowercased parameter (not the caller's original string) and
`count` equals the length of the returned outages array. -/
theorem C10_response_echo : ∀ (q : Query) (fs : Option (List Feature))
    (c lraw : String),
    q.county = some c → c ≠ "" → q.location = some lraw →
    jsToLower (jsTrim lraw) ≠ "" →
    ∃ body : OkBody,
      handleOutages q (Except.ok fs) = (true, ApiResp.ok body) ∧
      body.locationFilter = some (jsToLower (jsTrim lraw)) ∧
      body.count = body.outages.length := by
  intro q fs c lraw hc hcne hl hlf
  unfold handleOutages
  rw [hc, hl]
  have hcond : (match (some c : Option String) with
      | none => true
      | some s => s == "") = false := by
    show (c == "") = false
    exact beq_eq_false_iff_ne.mpr hcne
  rw [if_neg (by rw [hcond]; simp)]
  refine ⟨_, rfl, ?_, rfl⟩
  show (if locationParam (some lraw) = "" then none
        else some (locationParam (some lraw))) = some (jsToLower (jsTrim lraw))
  have hlp : locationParam (some lraw) = jsToLower (jsTrim lraw) := rfl
  rw [hlp, if_neg hlf]

/-- Witness for C10 at a concrete successful request. -/
theorem C10_response_echo_witness :
    ∃ body : OkBody,
      handleOutages ⟨some "Mayo", none, some " BALLina "⟩
          (Except.ok (some [⟨some demoRawBallina, none⟩])) =
        (true, ApiResp.ok body) ∧
      body.locationFilter = some (jsToLower (jsTrim " BALLina ")) ∧
      body.count = body.outages.length :=
  C10_response_echo ⟨some "Mayo", none, some " BALLina "⟩
    (some [⟨some demoRawBallina, none⟩]) "Mayo" " BALLina " rfl (by decide) rfl
    (by decide)

end WaterOutage
